import Mathlib

/-!
Verification of the message-normalization core of the git-qwen commit
assistant (src/src/main.rs).

Strings are modelled as lists of characters (List Char); Rust byte
lengths and byte indexing are recovered through Char.utf8Size, so the
byte-slice panic sites of the Rust code are represented faithfully
(fallible operations return Option).  Each definition is annotated with
the source function and lines it embeds.
-/

set_option maxRecDepth 8000

/-- Unicode White_Space code points: the set used by Rust's
char::is_whitespace, which underlies str::trim, str::trim_end and
str::split_whitespace in main.rs. -/
def isWS (c : Char) : Bool :=
  let n := c.toNat
  n == 0x09 || n == 0x0A || n == 0x0B || n == 0x0C || n == 0x0D || n == 0x20 ||
  n == 0x85 || n == 0xA0 || n == 0x1680 || (0x2000 ≤ n && n ≤ 0x200A) ||
  n == 0x2028 || n == 0x2029 || n == 0x202F || n == 0x205F || n == 0x3000

/-- Rust String::len counts UTF-8 bytes; this is the length measure used
by main.rs in the subject-truncation test (line 283), the wrap-width
comparison (line 333) and the language-tag test (line 262). -/
def byteLen (l : List Char) : Nat :=
  (l.map Char.utf8Size).sum

/-- str::trim_start (leading whitespace removal). -/
def trimStart (l : List Char) : List Char :=
  l.dropWhile isWS

/-- str::trim_end, as used on the subject line (main.rs line 289). -/
def trimEnd (l : List Char) : List Char :=
  (l.reverse.dropWhile isWS).reverse

/-- str::trim (both ends), as used in main.rs lines 253, 271 and 126. -/
def trim (l : List Char) : List Char :=
  trimEnd (trimStart l)

/-- Join a list of strings with a separator, the functional counterpart
of the push_str accumulation used throughout main.rs. -/
def joinWith (sep : List Char) : List (List Char) → List Char
  | [] => []
  | [x] => x
  | x :: y :: xs => x ++ sep ++ joinWith sep (y :: xs)

/-- str::split('\n'): every part between consecutive newlines, including
empty parts and an empty final part after a trailing newline. -/
def splitNL : List Char → List (List Char)
  | [] => [[]]
  | a :: rest =>
    if a = '\n' then [] :: splitNL rest
    else
      match splitNL rest with
      | [] => [[a]]
      | p :: ps => (a :: p) :: ps

/-- Drop one trailing carriage return, as str::lines does for each line
terminated by a newline. -/
def stripCR (l : List Char) : List Char :=
  if l.getLast? = some '\r' then l.dropLast else l

/-- str::lines, used by format_commit_message (line 276), wrap_text
(line 319) and the empty-message check in main (line 122): splits at
newline terminators, strips a carriage return before each terminator,
and drops the empty fragment after a final terminator. -/
def rustLines (l : List Char) : List (List Char) :=
  if l = [] then []
  else
    match (splitNL l).getLast? with
    | none => []
    | some last =>
      if last = [] then (splitNL l).dropLast.map stripCR
      else (splitNL l).dropLast.map stripCR ++ [last]

/-- str::split("\n\n"), the paragraph delimiter of wrap_text (main.rs
line 312): non-overlapping matches of two consecutive newlines, scanned
left to right. -/
def splitNN : List Char → List (List Char)
  | [] => [[]]
  | [a] => [[a]]
  | a :: b :: rest =>
    if a = '\n' ∧ b = '\n' then [] :: splitNN rest
    else
      match splitNN (b :: rest) with
      | [] => [[a]]
      | p :: ps => (a :: p) :: ps

/-- Whether the text contains two consecutive newlines (an occurrence of
the paragraph delimiter). -/
def hasNN : List Char → Bool
  | a :: b :: rest => (a = '\n' && b = '\n') || hasNN (b :: rest)
  | _ => false

/-- str::split_whitespace, used by wrap_text (main.rs line 327): the
maximal runs of non-whitespace characters. -/
def splitWS : List Char → List (List Char)
  | [] => []
  | c :: rest =>
    if isWS c then splitWS rest
    else
      match rest.head? with
      | none => [[c]]
      | some d =>
        if isWS d then [c] :: splitWS rest
        else
          match splitWS rest with
          | [] => [[c]]
          | w :: ws => (c :: w) :: ws

example : splitWS ("  a bc ".toList) = ["a".toList, "bc".toList] := by decide
example : splitNN ("a\n\n\nb".toList) = ["a".toList, "\nb".toList] := by decide
example : splitNN ("a\n\n\n\nb".toList) = ["a".toList, [], "b".toList] := by decide
example : rustLines ("a\r\nb".toList) = ["a".toList, "b".toList] := by decide
example : rustLines ("a\n".toList) = ["a".toList] := by decide
example : rustLines "".toList = [] := by decide
example : rustLines ("\n".toList) = [[]] := by decide
example : rustLines ("a\r".toList) = ["a\r".toList] := by decide
example : trim ("  a b\n".toList) = "a b".toList := by decide
example : byteLen ("aé".toList) = 3 := by decide

/-- The "\n" separator pushed between wrapped lines. -/
def nl : List Char := ['\n']

/-- The "\n\n" separator pushed between paragraphs / before the body. -/
def nn : List Char := ['\n', '\n']

/-- wrap_text, inner loop over paragraph.lines() (main.rs lines 318-324):
join the paragraph's lines with single spaces, trimming each line. -/
def joinPara (p : List Char) : List Char :=
  (rustLines p).foldl
    (fun buf line => if buf = [] then trim line else buf ++ ' ' :: trim line) []

/-- wrap_text, greedy word loop (main.rs lines 328-350): accumulate
words into current_line while the byte length stays within max_width,
flushing current_line whenever the next word does not fit; the final
nonempty current_line is flushed at the end.  Returns the flushed lines
in order.  current_line.len() + 1 + word.len() <= max_width is the
byte-length test of line 333. -/
def wrapWords (w : Nat) : List (List Char) → List Char → List (List Char)
  | [], cur => if cur = [] then [] else [cur]
  | word :: rest, cur =>
    if cur = [] then wrapWords w rest word
    else if byteLen cur + 1 + byteLen word ≤ w then
      wrapWords w rest (cur ++ ' ' :: word)
    else cur :: wrapWords w rest word

/-- The wrapped lines of one paragraph of wrap_text. -/
def wrapParagraph (p : List Char) (w : Nat) : List (List Char) :=
  wrapWords w (splitWS (joinPara p)) []

/-- The per-paragraph line lists of wrap_text whose content reaches the
output.  The imperative loop of wrap_text pushes a "\n\n" separator at
the start of each paragraph only once result is nonempty, so paragraphs
are skipped while the accumulated result is still empty, i.e. while
every paragraph so far rendered to the empty string. -/
def wrapPieces (t : List Char) (w : Nat) : List (List (List Char)) :=
  ((splitNN t).map (fun p => wrapParagraph p w)).dropWhile
    (fun ls => joinWith nl ls = [])

/-- wrap_text (main.rs lines 309-354).  Inside a paragraph each flushed
line is nonempty and is preceded by a single '\n' unless the result is
empty or just received a paragraph separator, so a paragraph's pushes
render as its lines joined with "\n"; every paragraph after the first
content-bearing one is preceded by exactly one "\n\n" push.  The
validation examples below check this rendering against the imperative
behavior, including the empty- and blank-paragraph corner cases. -/
def wrap_text (t : List Char) (w : Nat) : List Char :=
  joinWith nn ((wrapPieces t w).map (fun ls => joinWith nl ls))

example : wrap_text "".toList 72 = [] := by decide
example : wrap_text ("x y z".toList) 3 = "x y\nz".toList := by decide
example : wrap_text ("a\n\n\n\nb".toList) 72 = "a\n\n\n\nb".toList := by decide
example : wrap_text ("\n\na".toList) 72 = "a".toList := by decide
example : wrap_text ("a\n\n \n\nb".toList) 72 = "a\n\n\n\nb".toList := by decide
example : wrap_text ("one\ntwo\n\nthree".toList) 72 = "one two\n\nthree".toList := by decide
example : wrap_text ("verylongword x".toList) 4 = "verylongword\nx".toList := by decide

/-- The first line of a text: the characters before the first newline
(str::find('\n') and slicing in main.rs lines 259-261). -/
def firstLine (l : List Char) : List Char :=
  l.takeWhile (fun c => c != '\n')

/-- The backtick character (U+0060). -/
def btick : Char := Char.ofNat 96

/-- The three-backtick fence marker. -/
def fenceMarker : List Char := [btick, btick, btick]

/-- strip_prefix("```").unwrap_or(message) (main.rs line 254). -/
def dropFenceStart (m : List Char) : List Char :=
  if fenceMarker.isPrefixOf m then m.drop 3 else m

/-- strip_suffix("```").unwrap_or(message) (main.rs line 255). -/
def dropFenceEnd (m : List Char) : List Char :=
  if fenceMarker.isSuffixOf m then m.take (m.length - 3) else m

/-- main.rs lines 257-269: drop a leading newline; otherwise, when a
newline exists, drop the whole first line when it looks like a language
identifier (no space character, fewer than 20 bytes). -/
def dropLangTag (m : List Char) : List Char :=
  if m.head? = some '\n' then m.tail
  else if (firstLine m).length < m.length then
    if ¬ (firstLine m).contains ' ' ∧ byteLen (firstLine m) < 20 then
      m.drop ((firstLine m).length + 1)
    else m
  else m

/-- The fence-stripping block of generate_commit_message (main.rs lines
252-271): trim; strip a leading and a trailing three-backtick marker;
apply the language-tag rule; trim again. -/
def fenceStrip (message : List Char) : List Char :=
  trim (dropLangTag (dropFenceEnd (dropFenceStart (trim message))))

example : fenceStrip ("```\nhello world\n```".toList) = "hello world".toList := by decide
example : fenceStrip ("```text\nhello world\n```".toList) = "hello world".toList := by decide
example : fenceStrip ("  hi there\n".toList) = "hi there".toList := by decide
example : fenceStrip ("foo\nbar".toList) = "bar".toList := by decide

/-- Subject-line computation of format_commit_message (main.rs lines
283-287): when the first line exceeds 50 bytes it is byte-sliced as
&lines[0][..50], which panics (None) when byte offset 50 is not a
character boundary. -/
def byteTake : Nat → List Char → Option (List Char)
  | 0, _ => some []
  | _ + 1, [] => none
  | n + 1, c :: cs =>
    if c.utf8Size ≤ n + 1 then (byteTake (n + 1 - c.utf8Size) cs).map (c :: ·)
    else none

/-- The subject of format_commit_message before trim_end: lines[0],
truncated to its first 50 bytes when longer. -/
def subjectOf (l0 : List Char) : Option (List Char) :=
  if byteLen l0 > 50 then byteTake 50 l0 else some l0

/-- Iterator::position of the first line whose trim is nonempty
(main.rs line 294). -/
def firstNonBlank : List (List Char) → Option Nat
  | [] => none
  | l :: ls => if trim l = [] then (firstNonBlank ls).map (· + 1) else some 0

/-- The body-assembly step of format_commit_message (main.rs lines
289-304), applied to the subject before trim_end and the lines after
the first: the result is the trim_end of the subject, and when a
non-blank later line exists at position startIdx (counted from line 1),
a "\n\n" separator and the wrap of lines[startIdx + 1..] (that is,
rest.drop startIdx) joined with "\n" and wrapped at width 72. -/
def formatBody (rest : List (List Char)) (subj : List Char) : List Char :=
  match rest with
  | [] => trimEnd subj
  | _ :: _ =>
    match firstNonBlank rest with
    | none => trimEnd subj
    | some startIdx =>
      trimEnd subj ++ nn ++ wrap_text (joinWith nl (rest.drop startIdx)) 72

/-- format_commit_message (main.rs lines 275-307).  None models the
byte-slice panic of the subject truncation. -/
def format_commit_message (message : List Char) : Option (List Char) :=
  match rustLines message with
  | [] => some []
  | l0 :: rest => (subjectOf l0).map (formatBody rest)

example : format_commit_message "".toList = some [] := by decide
example : format_commit_message ("subject".toList) = some ("subject".toList) := by decide
example : format_commit_message ("subject  \n\n\nbody text".toList)
    = some ("subject\n\nbody text".toList) := by decide
example : format_commit_message ("subject\n   \n ".toList) = some ("subject".toList) := by decide
example : format_commit_message ("\nfoo".toList) = some ("\n\nfoo".toList) := by decide

/-- The fence-strip-then-format composition performed by
generate_commit_message (main.rs lines 252-272) on the generator
output. -/
def generatePipeline (raw : List Char) : Option (List Char) :=
  format_commit_message (fenceStrip raw)

example : generatePipeline
    (("```\nAdd retry logic\n\nRetries failed requests up to three times when\n" ++
      "the network is flaky, improving reliability under\nintermittent outages.\n```").toList)
    = some (("Add retry logic\n\nRetries failed requests up to three times when " ++
      "the network is flaky,\nimproving reliability under intermittent outages.").toList) := by
  decide

/-- str::starts_with for argument tokens, computed on the character
lists. -/
def argStartsWith (arg pre : String) : Bool :=
  pre.toList.isPrefixOf arg.toList

/-- The per-argument bypass test of main (main.rs lines 24-44): value
free flags, long flags with an inline =value, and short value-taking
flags that are followed by another token. -/
def skipGenArg (args : List String) (i : Nat) (arg : String) : Bool :=
  (arg == "--fixup" || arg == "--squash" ||
   arg == "--help" || arg == "-h" || arg == "--version")
  ||
  (argStartsWith arg "--fixup=" || argStartsWith arg "--squash=" ||
   argStartsWith arg "--message=" || argStartsWith arg "--file=" ||
   argStartsWith arg "--reuse-message=" || argStartsWith arg "--reedit-message=")
  ||
  ((arg == "-m" || arg == "-F" || arg == "-C" || arg == "-c") && i + 1 < args.length)

/-- skip_generation (main.rs line 24): any argument, taken with its
index in the full argv (args[0] is the program name), satisfies the
bypass test. -/
def skip_generation (args : List String) : Bool :=
  args.enum.any fun p => skipGenArg args p.1 p.2

/-- The control-flow decision of main: bypass (pass through to git
commit, main.rs line 46-50) or generate with the three derived flags
is_amend (line 21), include_all (line 53) and include_signoff
(line 56). -/
inductive CommitFlow where
  | bypass
  | generate (is_amend include_all include_signoff : Bool)
deriving DecidableEq

/-- The flag derivation and branch of main (main.rs lines 17-56). -/
def mainFlow (args : List String) : CommitFlow :=
  if skip_generation args then .bypass
  else
    .generate (args.any fun a => a == "--amend")
      (args.any fun a => a == "-a" || a == "--all")
      (args.any fun a => a == "-s" || a == "--signoff")

example : skip_generation ["git-qwen", "--message=msg"] = true := by decide
example : skip_generation ["git-qwen", "-F", "f.txt"] = true := by decide
example : mainFlow ["git-qwen", "--amend", "-a"] = .generate true true false := by decide
example : mainFlow ["git-qwen", "-m", "msg"] = .bypass := by decide

/-- The outcomes of the git diff commands invoked by get_git_diff: the
stdout text of each command together with its exit status
(status.success()).  Spawn failures and non-UTF-8 output are not
modelled; the three strings stand for successfully decoded stdout. -/
structure GitEnv where
  headOk : Bool
  headDiff : String
  stagedOk : Bool
  stagedDiff : String
  unstagedOk : Bool
  unstagedDiff : String

/-- get_git_diff (main.rs lines 138-223).  In the amend branch the
HEAD~1..HEAD diff must succeed; the staged diff and (with include_all)
the unstaged diff degrade to "" on failure; the three are concatenated
in that order.  In the include_all branch both diffs must succeed and
are concatenated staged-then-unstaged.  Otherwise only the staged diff
is returned. -/
def get_git_diff (env : GitEnv) (include_all : Bool) (is_amend : Bool) :
    Except String String :=
  if is_amend then
    if ¬ env.headOk then
      .error "git diff command failed (is there a parent commit?)"
    else
      .ok (env.headDiff ++ (if env.stagedOk then env.stagedDiff else "") ++
        (if include_all then (if env.unstagedOk then env.unstagedDiff else "")
         else ""))
  else if include_all then
    if ¬ env.stagedOk ∨ ¬ env.unstagedOk then .error "git diff command failed"
    else .ok (env.stagedDiff ++ env.unstagedDiff)
  else
    if ¬ env.stagedOk then .error "git diff command failed"
    else .ok env.stagedDiff

/-- The comment-stripping of the edited message in main (main.rs lines
122-127): drop every line starting with '#', re-join with "\n", trim. -/
def stripComments (edited : List Char) : List Char :=
  trim (joinWith nl ((rustLines edited).filter fun line => line.head? ≠ some '#'))

/-- The tail of the generate flow in main (main.rs lines 129-135): abort
with exit code 1 when the stripped message is empty, otherwise invoke
the commit sink with exactly the stripped message. -/
def postEditOutcome (edited : List Char) : Except Nat (List Char) :=
  if stripComments edited = [] then .error 1 else .ok (stripComments edited)

example : postEditOutcome ("# all comments\n#x".toList) = .error 1 := rfl
example : postEditOutcome ("msg\n# comment".toList) = .ok ("msg".toList) := rfl

/-! ### Helper lemmas: byte lengths, trimming, joining -/

theorem byteLen_cons (c : Char) (l : List Char) :
    byteLen (c :: l) = c.utf8Size + byteLen l := by
  simp [byteLen]

theorem byteLen_append (l1 l2 : List Char) :
    byteLen (l1 ++ l2) = byteLen l1 + byteLen l2 := by
  simp [byteLen]

theorem length_le_byteLen (l : List Char) : l.length ≤ byteLen l := by
  induction l with
  | nil => simp [byteLen]
  | cons c cs ih =>
    have h1 : 0 < c.utf8Size := Char.utf8Size_pos c
    simp only [List.length_cons, byteLen_cons]
    omega

theorem byteLen_le_of_sublist {l1 l2 : List Char} (h : List.Sublist l1 l2) :
    byteLen l1 ≤ byteLen l2 := by
  induction h with
  | slnil => exact Nat.le_refl _
  | cons a _ ih => simp only [byteLen_cons]; omega
  | cons₂ a _ ih => simp only [byteLen_cons]; omega

theorem dropWhile_sublist_self {α : Type*} (p : α → Bool) (l : List α) :
    List.Sublist (l.dropWhile p) l := by
  induction l with
  | nil => simp
  | cons c cs ih =>
    rw [List.dropWhile_cons]
    by_cases h : p c
    · simpa [h] using List.Sublist.cons c ih
    · simp [h]

theorem trimStart_sublist (l : List Char) : List.Sublist (trimStart l) l :=
  dropWhile_sublist_self isWS l

theorem trimEnd_sublist (l : List Char) : List.Sublist (trimEnd l) l := by
  have h := dropWhile_sublist_self isWS l.reverse
  have h2 : List.Sublist (trimEnd l) l.reverse.reverse := List.reverse_sublist.mpr h
  simpa using h2

theorem trim_sublist (l : List Char) : List.Sublist (trim l) l :=
  ((trimEnd_sublist (trimStart l)).trans (trimStart_sublist l))

theorem mem_of_mem_trimEnd {c : Char} {l : List Char} (h : c ∈ trimEnd l) : c ∈ l :=
  (trimEnd_sublist l).mem h

theorem mem_dropWhile_of_mem {p : Char → Bool} {c : Char} {l : List Char}
    (hm : c ∈ l) (hp : p c = false) : c ∈ l.dropWhile p := by
  induction l with
  | nil => cases hm
  | cons a as ih =>
    rw [List.dropWhile_cons]
    by_cases h : p a
    · simp only [h, if_true]
      rcases List.mem_cons.mp hm with rfl | hmem
      · rw [h] at hp; cases hp
      · exact ih hmem
    · simp only [h, if_false]
      exact hm

theorem mem_trim_of_mem {c : Char} {l : List Char}
    (hm : c ∈ l) (hp : isWS c = false) : c ∈ trim l := by
  have h1 : c ∈ trimStart l := mem_dropWhile_of_mem hm hp
  have h2 : c ∈ (trimStart l).reverse := List.mem_reverse.mpr h1
  have h3 : c ∈ (trimStart l).reverse.dropWhile isWS := mem_dropWhile_of_mem h2 hp
  exact List.mem_reverse.mpr h3

theorem joinWith_cons (sep x y : List Char) (ys : List (List Char)) :
    joinWith sep (x :: y :: ys) = x ++ sep ++ joinWith sep (y :: ys) := rfl

theorem joinWith_append_of_ne_nil (sep : List Char) {xs ys : List (List Char)}
    (hx : xs ≠ []) (hy : ys ≠ []) :
    joinWith sep (xs ++ ys) = joinWith sep xs ++ sep ++ joinWith sep ys := by
  induction xs with
  | nil => cases hx rfl
  | cons x xs ih =>
    cases xs with
    | nil =>
      cases ys with
      | nil => cases hy rfl
      | cons y ys => simp [joinWith]
    | cons x2 xs2 =>
      have hx2 : (x2 :: xs2 : List (List Char)) ≠ [] := by simp
      simp only [List.cons_append]
      rw [joinWith_cons, joinWith_cons]
      have : (x2 :: xs2) ++ ys = x2 :: (xs2 ++ ys) := by simp
      rw [← this, ih hx2]
      simp [List.append_assoc]

theorem joinWith_ne_nil (sep : List Char) {m : List Char} (ms : List (List Char))
    (hm : m ≠ []) : joinWith sep (m :: ms) ≠ [] := by
  cases ms with
  | nil => simpa [joinWith]
  | cons y ys =>
    rw [joinWith_cons]
    cases m with
    | nil => cases hm rfl
    | cons a as => simp

theorem joinWith_head?_of_ne_nil (sep : List Char) {m : List Char}
    (ms : List (List Char)) (hm : m ≠ []) :
    (joinWith sep (m :: ms)).head? = m.head? := by
  cases ms with
  | nil => rfl
  | cons y ys =>
    rw [joinWith_cons]
    cases m with
    | nil => cases hm rfl
    | cons a as => simp

/-! ### Helper lemmas: line splitting -/

theorem splitNL_cons (a : Char) (rest : List Char) :
    splitNL (a :: rest) =
      if a = '\n' then [] :: splitNL rest
      else
        match splitNL rest with
        | [] => [[a]]
        | p :: ps => (a :: p) :: ps := rfl

theorem splitNL_ne_nil (l : List Char) : splitNL l ≠ [] := by
  cases l with
  | nil => simp [splitNL]
  | cons a rest =>
    rw [splitNL_cons]
    by_cases h : a = '\n'
    · simp [h]
    · rw [if_neg h]
      cases hs : splitNL rest with
      | nil => simp
      | cons p ps => simp

theorem splitNL_no_newline (l : List Char) : ∀ p ∈ splitNL l, '\n' ∉ p := by
  induction l with
  | nil =>
    intro p hp
    simp [splitNL] at hp
    simp [hp]
  | cons a rest ih =>
    intro p hp
    rw [splitNL_cons] at hp
    by_cases h : a = '\n'
    · rw [if_pos h] at hp
      rcases List.mem_cons.mp hp with rfl | hmem
      · simp
      · exact ih p hmem
    · rw [if_neg h] at hp
      cases hs : splitNL rest with
      | nil =>
        rw [hs] at hp
        simp at hp
        subst hp
        simp only [List.mem_singleton]
        exact fun hx => h hx.symm
      | cons q qs =>
        rw [hs] at hp
        rcases List.mem_cons.mp hp with rfl | hmem
        · intro hc
          rcases List.mem_cons.mp hc with rfl | hcq
          · exact h rfl
          · exact (ih q (by rw [hs]; exact List.mem_cons_self q qs)) hcq
        · exact ih p (by rw [hs]; exact List.mem_cons_of_mem q hmem)

theorem splitNL_mem_exists {c : Char} {l : List Char} (hm : c ∈ l) (hc : c ≠ '\n') :
    ∃ p ∈ splitNL l, c ∈ p := by
  induction l with
  | nil => cases hm
  | cons a rest ih =>
    rw [splitNL_cons]
    by_cases h : a = '\n'
    · rw [if_pos h]
      rcases List.mem_cons.mp hm with rfl | hmem
      · rw [h] at hc; cases hc rfl
      · rcases ih hmem with ⟨p, hp, hcp⟩
        exact ⟨p, List.mem_cons_of_mem _ hp, hcp⟩
    · rw [if_neg h]
      rcases List.mem_cons.mp hm with rfl | hmem
      · cases hs : splitNL rest with
        | nil => exact ⟨[c], by simp, by simp⟩
        | cons q qs => exact ⟨c :: q, by simp, by simp⟩
      · rcases ih hmem with ⟨p, hp, hcp⟩
        cases hs : splitNL rest with
        | nil => rw [hs] at hp; cases hp
        | cons q qs =>
          rw [hs] at hp
          rcases List.mem_cons.mp hp with rfl | hp2
          · exact ⟨a :: p, by simp, List.mem_cons_of_mem _ hcp⟩
          · exact ⟨p, by simp [hp2], hcp⟩

theorem mem_stripCR_of_mem {c : Char} {p : List Char} (hm : c ∈ p) (hc : c ≠ '\r') :
    c ∈ stripCR p := by
  rw [stripCR]
  by_cases h : p.getLast? = some '\r'
  · rw [if_pos h]
    have hne : p ≠ [] := by intro he; rw [he] at h; simp at h
    have hdec := List.dropLast_append_getLast hne
    have hlast : p.getLast hne = '\r' := by
      have hg := List.getLast?_eq_getLast p hne
      rw [hg] at h
      exact Option.some.inj h
    rw [← hdec] at hm
    rcases List.mem_append.mp hm with h1 | h2
    · exact h1
    · simp at h2
      rw [hlast] at h2
      exact absurd h2 hc
  · rw [if_neg h]
    exact hm

theorem stripCR_subset {c : Char} {p : List Char} (hm : c ∈ stripCR p) : c ∈ p := by
  rw [stripCR] at hm
  by_cases h : p.getLast? = some '\r'
  · rw [if_pos h] at hm
    exact List.mem_of_mem_dropLast hm
  · rw [if_neg h] at hm
    exact hm

theorem rustLines_of_ne_nil {l : List Char} (h : l ≠ []) {last : List Char}
    (hg : (splitNL l).getLast? = some last) :
    rustLines l =
      if last = [] then (splitNL l).dropLast.map stripCR
      else (splitNL l).dropLast.map stripCR ++ [last] := by
  rw [rustLines, if_neg h, hg]

theorem rustLines_mem_split {l line : List Char} (hline : line ∈ rustLines l) :
    line ∈ splitNL l ∨ ∃ p ∈ splitNL l, line = stripCR p := by
  by_cases h : l = []
  · rw [h] at hline; simp [rustLines] at hline
  · have hne := splitNL_ne_nil l
    have hg := List.getLast?_eq_getLast (splitNL l) hne
    rw [rustLines_of_ne_nil h hg] at hline
    have hmem_last : (splitNL l).getLast hne ∈ splitNL l := List.getLast_mem hne
    by_cases hl : (splitNL l).getLast hne = []
    · rw [if_pos hl] at hline
      rcases List.mem_map.mp hline with ⟨p, hp, hpe⟩
      exact Or.inr ⟨p, List.mem_of_mem_dropLast hp, hpe.symm⟩
    · rw [if_neg hl] at hline
      rcases List.mem_append.mp hline with h1 | h2
      · rcases List.mem_map.mp h1 with ⟨p, hp, hpe⟩
        exact Or.inr ⟨p, List.mem_of_mem_dropLast hp, hpe.symm⟩
      · simp at h2
        rw [h2]
        exact Or.inl hmem_last

theorem rustLines_no_newline (l : List Char) : ∀ line ∈ rustLines l, '\n' ∉ line := by
  intro line hline hmem
  rcases rustLines_mem_split hline with h1 | ⟨p, hp, hpe⟩
  · exact splitNL_no_newline l line h1 hmem
  · rw [hpe] at hmem
    exact splitNL_no_newline l p hp (stripCR_subset hmem)

theorem rustLines_mem_exists {c : Char} {l : List Char} (hm : c ∈ l)
    (hn : c ≠ '\n') (hr : c ≠ '\r') : ∃ line ∈ rustLines l, c ∈ line := by
  have hlne : l ≠ [] := by intro he; rw [he] at hm; cases hm
  rcases splitNL_mem_exists hm hn with ⟨p, hp, hcp⟩
  have hne := splitNL_ne_nil l
  have hg := List.getLast?_eq_getLast (splitNL l) hne
  rw [rustLines_of_ne_nil hlne hg]
  have hdec := List.dropLast_append_getLast hne
  rw [← hdec] at hp
  rcases List.mem_append.mp hp with hpi | hpl
  · refine ⟨stripCR p, ?_, mem_stripCR_of_mem hcp hr⟩
    by_cases hl : (splitNL l).getLast hne = []
    · rw [if_pos hl]
      exact List.mem_map.mpr ⟨p, hpi, rfl⟩
    · rw [if_neg hl]
      exact List.mem_append.mpr (Or.inl (List.mem_map.mpr ⟨p, hpi, rfl⟩))
  · simp at hpl
    subst hpl
    have hl : (splitNL l).getLast hne ≠ [] := by
      intro he; rw [he] at hcp; cases hcp
    rw [if_neg hl]
    exact ⟨(splitNL l).getLast hne, List.mem_append.mpr (Or.inr (by simp)), hcp⟩

/-! ### Helper lemmas: paragraph splitting -/

theorem splitNN_cons_cons (a b : Char) (rest : List Char) :
    splitNN (a :: b :: rest) =
      if a = '\n' ∧ b = '\n' then [] :: splitNN rest
      else
        match splitNN (b :: rest) with
        | [] => [[a]]
        | p :: ps => (a :: p) :: ps := rfl

theorem hasNN_cons_cons (a b : Char) (rest : List Char) :
    hasNN (a :: b :: rest) =
      ((decide (a = '\n') && decide (b = '\n')) || hasNN (b :: rest)) := rfl

theorem splitNN_eq_single_of_not_hasNN :
    ∀ (l : List Char), hasNN l = false → splitNN l = [l]
  | [], _ => rfl
  | [a], _ => rfl
  | a :: b :: rest, h => by
    rw [hasNN_cons_cons, Bool.or_eq_false_iff] at h
    have hcond : ¬(a = '\n' ∧ b = '\n') := by
      intro ⟨h1, h2⟩
      rw [h1, h2] at h
      simp at h
    rw [splitNN_cons_cons, if_neg hcond,
      splitNN_eq_single_of_not_hasNN (b :: rest) h.2]

theorem splitNN_append_nn :
    ∀ (c s : List Char), hasNN c = false → c.getLast? ≠ some '\n' →
      splitNN (c ++ '\n' :: '\n' :: s) = c :: splitNN s
  | [], s, _, _ => by
    rw [List.nil_append, splitNN_cons_cons, if_pos ⟨rfl, rfl⟩]
  | [a], s, _, hlast => by
    have ha : a ≠ '\n' := by simpa using hlast
    rw [List.cons_append, List.nil_append, splitNN_cons_cons,
      if_neg (fun hx => ha hx.1), splitNN_cons_cons, if_pos ⟨rfl, rfl⟩]
  | a :: a2 :: c', s, h, hlast => by
    rw [hasNN_cons_cons, Bool.or_eq_false_iff] at h
    have hcond : ¬(a = '\n' ∧ a2 = '\n') := by
      intro ⟨h1, h2⟩
      rw [h1, h2] at h
      simp at h
    have hlast2 : (a2 :: c').getLast? ≠ some '\n' := by
      rwa [List.getLast?_cons_cons] at hlast
    have hrec := splitNN_append_nn (a2 :: c') s h.2 hlast2
    rw [List.cons_append] at hrec
    rw [List.cons_append, List.cons_append, splitNN_cons_cons, if_neg hcond, hrec]

theorem splitNN_joinWith (cs : List (List Char)) (hne : cs ≠ [])
    (hgood : ∀ c ∈ cs, hasNN c = false ∧ c.getLast? ≠ some '\n') :
    splitNN (joinWith nn cs) = cs := by
  induction cs with
  | nil => cases hne rfl
  | cons c cs ih =>
    cases cs with
    | nil =>
      exact splitNN_eq_single_of_not_hasNN c (hgood c (by simp)).1
    | cons c2 cs2 =>
      rw [joinWith_cons]
      rw [show c ++ nn ++ joinWith nn (c2 :: cs2)
          = c ++ '\n' :: '\n' :: joinWith nn (c2 :: cs2) by simp [nn]]
      rw [splitNN_append_nn c _ (hgood c (by simp)).1 (hgood c (by simp)).2]
      rw [ih (by simp) (fun x hx => hgood x (List.mem_cons_of_mem _ hx))]

/-! ### Helper lemmas: words and the greedy wrapper -/

theorem splitWS_cons (c : Char) (rest : List Char) :
    splitWS (c :: rest) =
      if isWS c then splitWS rest
      else
        match rest.head? with
        | none => [[c]]
        | some d =>
          if isWS d then [c] :: splitWS rest
          else
            match splitWS rest with
            | [] => [[c]]
            | w :: ws => (c :: w) :: ws := rfl

theorem splitWS_words_ok (l : List Char) :
    ∀ word ∈ splitWS l, word ≠ [] ∧ ∀ ch ∈ word, isWS ch = false := by
  induction l with
  | nil => intro word hw; simp [splitWS] at hw
  | cons c rest ih =>
    intro word hw
    rw [splitWS_cons] at hw
    by_cases hc : isWS c
    · rw [if_pos hc] at hw
      exact ih word hw
    · rw [if_neg hc] at hw
      rw [Bool.not_eq_true] at hc
      cases hrest : rest with
      | nil =>
        rw [hrest] at hw
        simp at hw
        subst hw
        exact ⟨by simp, by simp [hc]⟩
      | cons d rest2 =>
        rw [hrest] at hw
        simp only [List.head?_cons] at hw
        by_cases hd : isWS d
        · rw [if_pos hd] at hw
          rcases List.mem_cons.mp hw with rfl | hmem
          · exact ⟨by simp, by simp [hc]⟩
          · rw [← hrest] at hmem
            exact ih word hmem
        · rw [if_neg hd] at hw
          cases hs : splitWS (d :: rest2) with
          | nil =>
            rw [hs] at hw
            simp at hw
            subst hw
            exact ⟨by simp, by simp [hc]⟩
          | cons w ws =>
            rw [hs] at hw
            rcases List.mem_cons.mp hw with rfl | hmem
            · have hwok := ih w (by rw [hrest, hs]; exact List.mem_cons_self w ws)
              refine ⟨by simp, ?_⟩
              intro ch hch
              rcases List.mem_cons.mp hch with rfl | hch2
              · exact hc
              · exact hwok.2 ch hch2
            · exact ih word (by rw [hrest, hs]; exact List.mem_cons_of_mem w hmem)

theorem splitWS_ne_nil_of_exists {l : List Char}
    (h : ∃ c ∈ l, isWS c = false) : splitWS l ≠ [] := by
  induction l with
  | nil => rcases h with ⟨c, hc, _⟩; cases hc
  | cons a rest ih =>
    rw [splitWS_cons]
    by_cases ha : isWS a
    · rw [if_pos ha]
      rcases h with ⟨c, hc, hcw⟩
      rcases List.mem_cons.mp hc with rfl | hmem
      · rw [ha] at hcw; cases hcw
      · exact ih ⟨c, hmem, hcw⟩
    · rw [if_neg ha]
      cases hrest : rest with
      | nil => simp
      | cons d rest2 =>
        simp only [List.head?_cons]
        by_cases hd : isWS d
        · rw [if_pos hd]; simp
        · rw [if_neg hd]
          cases hs : splitWS (d :: rest2) with
          | nil => simp
          | cons w ws => simp

theorem splitWS_word_eq_self {l : List Char} (hne : l ≠ [])
    (hok : ∀ ch ∈ l, isWS ch = false) : splitWS l = [l] := by
  induction l with
  | nil => cases hne rfl
  | cons c rest ih =>
    rw [splitWS_cons, if_neg (by simp [hok c (by simp)])]
    cases hrest : rest with
    | nil => rfl
    | cons d rest2 =>
      simp only [List.head?_cons]
      have hd : isWS d = false := hok d (by simp [hrest])
      rw [if_neg (by simp [hd])]
      rw [← hrest, ih (by simp [hrest]) (fun ch hch => hok ch (List.mem_cons_of_mem _ hch))]

theorem wrapWords_nil (w : Nat) (cur : List Char) :
    wrapWords w [] cur = if cur = [] then [] else [cur] := rfl

theorem wrapWords_cons (w : Nat) (word : List Char) (rest : List (List Char))
    (cur : List Char) :
    wrapWords w (word :: rest) cur =
      if cur = [] then wrapWords w rest word
      else if byteLen cur + 1 + byteLen word ≤ w then
        wrapWords w rest (cur ++ ' ' :: word)
      else cur :: wrapWords w rest word := rfl

theorem wrapWords_lines_ok (w : Nat) :
    ∀ (ws : List (List Char)) (cur : List Char),
      (∀ wd ∈ ws, wd ≠ [] ∧ '\n' ∉ wd) → '\n' ∉ cur →
      ∀ l ∈ wrapWords w ws cur, l ≠ [] ∧ '\n' ∉ l
  | [], cur, _, hcur => by
    intro l hl
    rw [wrapWords_nil] at hl
    by_cases h : cur = []
    · rw [if_pos h] at hl; cases hl
    · rw [if_neg h] at hl
      simp at hl
      subst hl
      exact ⟨h, hcur⟩
  | word :: rest, cur, hws, hcur => by
    intro l hl
    have hword := hws word (by simp)
    have hrest : ∀ wd ∈ rest, wd ≠ [] ∧ '\n' ∉ wd :=
      fun wd hwd => hws wd (List.mem_cons_of_mem _ hwd)
    rw [wrapWords_cons] at hl
    by_cases h : cur = []
    · rw [if_pos h] at hl
      exact wrapWords_lines_ok w rest word hrest hword.2 l hl
    · rw [if_neg h] at hl
      by_cases hfit : byteLen cur + 1 + byteLen word ≤ w
      · rw [if_pos hfit] at hl
        have hcur2 : '\n' ∉ cur ++ ' ' :: word := by
          intro hm
          rcases List.mem_append.mp hm with h1 | h2
          · exact hcur h1
          · rcases List.mem_cons.mp h2 with h3 | h4
            · cases h3
            · exact hword.2 h4
        exact wrapWords_lines_ok w rest (cur ++ ' ' :: word) hrest hcur2 l hl
      · rw [if_neg hfit] at hl
        rcases List.mem_cons.mp hl with rfl | hmem
        · exact ⟨h, hcur⟩
        · exact wrapWords_lines_ok w rest word hrest hword.2 l hmem

theorem wrapWords_ne_nil (w : Nat) :
    ∀ (ws : List (List Char)) (cur : List Char),
      (∀ wd ∈ ws, wd ≠ []) → cur ≠ [] ∨ ws ≠ [] → wrapWords w ws cur ≠ []
  | [], cur, _, hor => by
    rw [wrapWords_nil]
    rcases hor with h | h
    · rw [if_neg h]; simp
    · cases h rfl
  | word :: rest, cur, hws, _ => by
    have hword : word ≠ [] := hws word (by simp)
    have hrest : ∀ wd ∈ rest, wd ≠ [] := fun wd hwd => hws wd (List.mem_cons_of_mem _ hwd)
    rw [wrapWords_cons]
    by_cases h : cur = []
    · rw [if_pos h]
      exact wrapWords_ne_nil w rest word hrest (Or.inl hword)
    · rw [if_neg h]
      by_cases hfit : byteLen cur + 1 + byteLen word ≤ w
      · rw [if_pos hfit]
        exact wrapWords_ne_nil w rest (cur ++ ' ' :: word) hrest (Or.inl (by simp [h]))
      · rw [if_neg hfit]; simp

theorem wrapWords_width (w : Nat) :
    ∀ (ws : List (List Char)) (cur : List Char),
      (∀ wd ∈ ws, wd ≠ [] ∧ ∀ ch ∈ wd, isWS ch = false) →
      byteLen cur ≤ w ∨ (cur ≠ [] ∧ (∀ ch ∈ cur, isWS ch = false) ∧ w < byteLen cur) →
      ∀ l ∈ wrapWords w ws cur,
        byteLen l ≤ w ∨ (l ≠ [] ∧ (∀ ch ∈ l, isWS ch = false) ∧ w < byteLen l)
  | [], cur, _, hcur => by
    intro l hl
    rw [wrapWords_nil] at hl
    by_cases h : cur = []
    · rw [if_pos h] at hl; cases hl
    · rw [if_neg h] at hl
      simp at hl
      subst hl
      exact hcur
  | word :: rest, cur, hws, hcur => by
    intro l hl
    have hword := hws word (by simp)
    have hrest : ∀ wd ∈ rest, wd ≠ [] ∧ ∀ ch ∈ wd, isWS ch = false :=
      fun wd hwd => hws wd (List.mem_cons_of_mem _ hwd)
    have hwordInv : byteLen word ≤ w ∨
        (word ≠ [] ∧ (∀ ch ∈ word, isWS ch = false) ∧ w < byteLen word) := by
      by_cases hb : byteLen word ≤ w
      · exact Or.inl hb
      · exact Or.inr ⟨hword.1, hword.2, Nat.lt_of_not_le hb⟩
    rw [wrapWords_cons] at hl
    by_cases h : cur = []
    · rw [if_pos h] at hl
      exact wrapWords_width w rest word hrest hwordInv l hl
    · rw [if_neg h] at hl
      by_cases hfit : byteLen cur + 1 + byteLen word ≤ w
      · rw [if_pos hfit] at hl
        have : byteLen (cur ++ ' ' :: word) ≤ w := by
          rw [byteLen_append, byteLen_cons]
          have : (' ' : Char).utf8Size = 1 := rfl
          omega
        exact wrapWords_width w rest (cur ++ ' ' :: word) hrest (Or.inl this) l hl
      · rw [if_neg hfit] at hl
        rcases List.mem_cons.mp hl with rfl | hmem
        · exact hcur
        · exact wrapWords_width w rest word hrest hwordInv l hmem

theorem wrapParagraph_lines_ok (p : List Char) (w : Nat) :
    ∀ l ∈ wrapParagraph p w, l ≠ [] ∧ '\n' ∉ l := by
  apply wrapWords_lines_ok
  · intro wd hwd
    have h := splitWS_words_ok (joinPara p) wd hwd
    refine ⟨h.1, fun hm => ?_⟩
    have := h.2 '\n' hm
    simp [isWS] at this
  · simp

theorem wrapParagraph_width (p : List Char) (w : Nat) :
    ∀ l ∈ wrapParagraph p w,
      byteLen l ≤ w ∨ (l ≠ [] ∧ (∀ ch ∈ l, isWS ch = false) ∧ w < byteLen l) := by
  apply wrapWords_width
  · exact fun wd hwd => splitWS_words_ok (joinPara p) wd hwd
  · exact Or.inl (by simp [byteLen])

/-! ### Helper lemmas: rendered paragraph contents are fence posts for
the "\n\n" splitter -/

theorem hasNN_of_no_newline {l : List Char} (h : '\n' ∉ l) : hasNN l = false := by
  induction l with
  | nil => rfl
  | cons a rest ih =>
    cases rest with
    | nil => rfl
    | cons b rest2 =>
      rw [hasNN_cons_cons, Bool.or_eq_false_iff]
      have ha : a ≠ '\n' := by
        intro hx
        apply h
        rw [← hx]
        exact List.mem_cons_self a _
      refine ⟨by simp [ha], ?_⟩
      exact ih (fun hm => h (List.mem_cons_of_mem _ hm))

theorem hasNN_append_newline {l J : List Char} (hl : '\n' ∉ l)
    (hJ : J.head? ≠ some '\n') (hJN : hasNN J = false) :
    hasNN (l ++ '\n' :: J) = false := by
  induction l with
  | nil =>
    rw [List.nil_append]
    cases J with
    | nil => rfl
    | cons j J2 =>
      rw [hasNN_cons_cons, Bool.or_eq_false_iff]
      have hj : j ≠ '\n' := by simpa using hJ
      exact ⟨by simp [hj], hJN⟩
  | cons x l' ih =>
    have hx : x ≠ '\n' := fun hm => hl (hm ▸ List.mem_cons_self x _)
    have hl' : '\n' ∉ l' := fun hm => hl (List.mem_cons_of_mem _ hm)
    rw [List.cons_append]
    rcases hq : l' ++ '\n' :: J with _ | ⟨b, q⟩
    · simp at hq
    · rw [hasNN_cons_cons, Bool.or_eq_false_iff]
      refine ⟨by simp [hx], ?_⟩
      rw [← hq]
      exact ih hl'

theorem getLast?_mem' {l : List Char} {a : Char} (h : l.getLast? = some a) : a ∈ l := by
  have hne : l ≠ [] := by intro he; rw [he] at h; cases h
  have hg := List.getLast?_eq_getLast l hne
  rw [hg] at h
  have := List.getLast_mem hne
  rwa [Option.some.inj h] at this

theorem getLast?_append_cons_ne {m J : List Char} (hJne : J ≠ [])
    (hlast : J.getLast? ≠ some '\n') (c : Char) :
    (m ++ c :: J).getLast? ≠ some '\n' := by
  rw [List.getLast?_append]
  have hstep : (c :: J).getLast? = J.getLast? := by
    cases J with
    | nil => cases hJne rfl
    | cons j J2 => rw [List.getLast?_cons_cons]
  rw [hstep, List.getLast?_eq_getLast J hJne]
  rw [List.getLast?_eq_getLast J hJne] at hlast
  simpa using hlast

theorem content_good (lines : List (List Char))
    (hok : ∀ l ∈ lines, l ≠ [] ∧ '\n' ∉ l) :
    hasNN (joinWith nl lines) = false ∧ (joinWith nl lines).getLast? ≠ some '\n' := by
  induction lines with
  | nil => exact ⟨rfl, by simp [joinWith]⟩
  | cons m ms ih =>
    cases ms with
    | nil =>
      have hm := hok m (by simp)
      refine ⟨hasNN_of_no_newline hm.2, fun hlast => ?_⟩
      exact hm.2 (getLast?_mem' hlast)
    | cons m2 ms2 =>
      have hm := hok m (by simp)
      have hrest : ∀ l ∈ m2 :: ms2, l ≠ [] ∧ '\n' ∉ l :=
        fun l hl => hok l (List.mem_cons_of_mem _ hl)
      have hih := ih hrest
      have hm2 := hrest m2 (by simp)
      have hJne : joinWith nl (m2 :: ms2) ≠ [] := joinWith_ne_nil nl ms2 hm2.1
      have hJhead : (joinWith nl (m2 :: ms2)).head? ≠ some '\n' := by
        rw [joinWith_head?_of_ne_nil nl ms2 hm2.1]
        cases m2 with
        | nil => cases hm2.1 rfl
        | cons a as =>
          simp only [List.head?_cons]
          intro hx
          have ha : a = '\n' := Option.some.inj hx
          apply hm2.2
          rw [← ha]
          exact List.mem_cons_self a as
      constructor
      · rw [joinWith_cons, show m ++ nl ++ joinWith nl (m2 :: ms2)
            = m ++ '\n' :: joinWith nl (m2 :: ms2) by simp [nl]]
        exact hasNN_append_newline hm.2 hJhead hih.1
      · rw [joinWith_cons, show m ++ nl ++ joinWith nl (m2 :: ms2)
            = m ++ '\n' :: joinWith nl (m2 :: ms2) by simp [nl]]
        exact getLast?_append_cons_ne hJne hih.2 '\n'

/-! ### Helper lemmas: the flat line list of wrap_text -/

/-- A paragraph with no rendered lines still occupies one (empty) line
of the output between its two "\n\n" separators. -/
def padPiece (ls : List (List Char)) : List (List Char) :=
  if ls = [] then [[]] else ls

/-- All output lines of wrap_text, in order: the wrapped lines of each
content-bearing paragraph, with one empty line standing between
consecutive paragraphs (the middle of the "\n\n" separator). -/
def interParas : List (List (List Char)) → List (List Char)
  | [] => []
  | [ls] => padPiece ls
  | ls :: ls2 :: rest => padPiece ls ++ [[]] ++ interParas (ls2 :: rest)

/-- The flat list of all lines of the output of wrap_text. -/
def allWrappedLines (t : List Char) (w : Nat) : List (List Char) :=
  interParas (wrapPieces t w)

theorem padPiece_ne_nil (ls : List (List Char)) : padPiece ls ≠ [] := by
  rw [padPiece]
  by_cases h : ls = []
  · rw [if_pos h]; simp
  · rw [if_neg h]; exact h

theorem interParas_ne_nil :
    ∀ (pss : List (List (List Char))), pss ≠ [] → interParas pss ≠ []
  | [], h => absurd rfl h
  | [ls], _ => by
    show padPiece ls ≠ []
    exact padPiece_ne_nil ls
  | ls :: ls2 :: rest, _ => by
    show padPiece ls ++ [[]] ++ interParas (ls2 :: rest) ≠ []
    simp [padPiece_ne_nil ls]

theorem joinWith_padPiece (ls : List (List Char)) :
    joinWith nl (padPiece ls) = joinWith nl ls := by
  rw [padPiece]
  by_cases h : ls = []
  · rw [if_pos h, h]; rfl
  · rw [if_neg h]

theorem mem_interParas :
    ∀ (pss : List (List (List Char))) (x : List Char), x ∈ interParas pss →
      x = [] ∨ ∃ piece ∈ pss, x ∈ piece
  | [], x, hx => by cases hx
  | [ls], x, hx => by
    rw [show interParas [ls] = padPiece ls from rfl, padPiece] at hx
    by_cases h : ls = []
    · rw [if_pos h] at hx
      simp at hx
      exact Or.inl hx
    · rw [if_neg h] at hx
      exact Or.inr ⟨ls, by simp, hx⟩
  | ls :: ls2 :: rest, x, hx => by
    rw [show interParas (ls :: ls2 :: rest)
        = padPiece ls ++ [[]] ++ interParas (ls2 :: rest) from rfl] at hx
    rcases List.mem_append.mp hx with h1 | h2
    · rcases List.mem_append.mp h1 with h3 | h4
      · rw [padPiece] at h3
        by_cases h : ls = []
        · rw [if_pos h] at h3
          simp at h3
          exact Or.inl h3
        · rw [if_neg h] at h3
          exact Or.inr ⟨ls, by simp, h3⟩
      · simp at h4
        exact Or.inl h4
    · rcases mem_interParas (ls2 :: rest) x h2 with h5 | ⟨piece, hp, hxp⟩
      · exact Or.inl h5
      · exact Or.inr ⟨piece, List.mem_cons_of_mem _ hp, hxp⟩

theorem joinWith_interParas :
    ∀ (pss : List (List (List Char))),
      joinWith nn (pss.map (fun ls => joinWith nl ls)) = joinWith nl (interParas pss)
  | [] => rfl
  | [ls] => by
    show joinWith nl ls = joinWith nl (padPiece ls)
    rw [joinWith_padPiece]
  | ls :: ls2 :: rest => by
    have hrec := joinWith_interParas (ls2 :: rest)
    have h1 : ([[]] : List (List Char)) ≠ [] := by simp
    have h2 : interParas (ls2 :: rest) ≠ [] := interParas_ne_nil _ (by simp)
    have h3 : padPiece ls ++ [[]] ≠ ([] : List (List Char)) := by
      simp
    calc joinWith nn ((ls :: ls2 :: rest).map (fun l => joinWith nl l))
        = joinWith nl ls ++ nn ++
            joinWith nn ((ls2 :: rest).map (fun l => joinWith nl l)) := by
          rw [List.map_cons, List.map_cons, joinWith_cons, ← List.map_cons]
      _ = joinWith nl ls ++ nn ++ joinWith nl (interParas (ls2 :: rest)) := by
          rw [hrec]
      _ = joinWith nl (padPiece ls ++ [[]] ++ interParas (ls2 :: rest)) := by
          rw [List.append_assoc (padPiece ls)]
          rw [joinWith_append_of_ne_nil nl (padPiece_ne_nil ls)
            (by simp : ([[]] : List (List Char)) ++ interParas (ls2 :: rest) ≠ [])]
          rcases hq : interParas (ls2 :: rest) with _ | ⟨q, qs⟩
          · cases h2 hq
          · rw [show ([[]] : List (List Char)) ++ q :: qs = [] :: q :: qs from rfl,
              joinWith_cons, joinWith_padPiece]
            simp [nl, nn]
      _ = joinWith nl (interParas (ls :: ls2 :: rest)) := rfl

theorem wrap_text_eq_joinWith_lines (t : List Char) (w : Nat) :
    wrap_text t w = joinWith nl (allWrappedLines t w) := by
  rw [wrap_text, allWrappedLines, joinWith_interParas]

/-! ### Helper lemmas: subject truncation -/

theorem byteTake_spec :
    ∀ (n : Nat) (l s : List Char), byteTake n l = some s →
      byteLen s ≤ n ∧ List.Sublist s l
  | 0, l, s, h => by
    simp [byteTake] at h
    subst h
    exact ⟨by simp [byteLen], List.nil_sublist l⟩
  | n + 1, [], s, h => by simp [byteTake] at h
  | n + 1, c :: cs, s, h => by
    rw [byteTake] at h
    by_cases hc : c.utf8Size ≤ n + 1
    · rw [if_pos hc] at h
      cases hb : byteTake (n + 1 - c.utf8Size) cs with
      | none => rw [hb] at h; simp at h
      | some s' =>
        rw [hb] at h
        simp only [Option.map_some'] at h
        rcases byteTake_spec _ _ _ hb with ⟨h1, h2⟩
        rw [← Option.some.inj h]
        constructor
        · rw [byteLen_cons]; omega
        · exact List.Sublist.cons₂ c h2
    · rw [if_neg hc] at h; cases h
  termination_by _ l => l.length

theorem subjectOf_spec {l0 s : List Char} (h : subjectOf l0 = some s) :
    byteLen s ≤ 50 ∧ List.Sublist s l0 := by
  rw [subjectOf] at h
  by_cases hb : byteLen l0 > 50
  · rw [if_pos hb] at h
    exact byteTake_spec 50 l0 s h
  · rw [if_neg hb] at h
    rw [← Option.some.inj h]
    exact ⟨Nat.le_of_not_lt hb, List.Sublist.refl l0⟩

/-! ### Helper lemmas: first lines and blank scanning -/

theorem takeWhile_ne_newline_eq_self {a : List Char} (ha : '\n' ∉ a) :
    a.takeWhile (fun c => c != '\n') = a := by
  induction a with
  | nil => rfl
  | cons x xs ih =>
    have hx : x ≠ '\n' := by
      intro he
      apply ha
      rw [← he]
      exact List.mem_cons_self x xs
    rw [List.takeWhile_cons, if_pos (bne_iff_ne.mpr hx)]
    rw [ih (fun hm => ha (List.mem_cons_of_mem _ hm))]

theorem takeWhile_append_newline {a b : List Char} (ha : '\n' ∉ a) :
    (a ++ '\n' :: b).takeWhile (fun c => c != '\n') = a := by
  induction a with
  | nil => simp [List.takeWhile_cons]
  | cons x xs ih =>
    have hx : x ≠ '\n' := by
      intro he
      apply ha
      rw [← he]
      exact List.mem_cons_self x xs
    rw [List.cons_append, List.takeWhile_cons, if_pos (bne_iff_ne.mpr hx)]
    rw [ih (fun hm => ha (List.mem_cons_of_mem _ hm))]

theorem firstNonBlank_eq_none {ls : List (List Char)}
    (h : ∀ l ∈ ls, trim l = []) : firstNonBlank ls = none := by
  induction ls with
  | nil => rfl
  | cons l ls ih =>
    rw [firstNonBlank, if_pos (h l (by simp)), ih (fun x hx => h x (List.mem_cons_of_mem _ hx))]
    rfl

/-! ### Helper lemmas: a non-blank paragraph renders at least one line -/

theorem mem_joinPara_of_mem {c : Char} {p : List Char}
    (hm : c ∈ p) (hc : isWS c = false) : c ∈ joinPara p := by
  have hn : c ≠ '\n' := by intro he; rw [he] at hc; simp [isWS] at hc
  have hr : c ≠ '\r' := by intro he; rw [he] at hc; simp [isWS] at hc
  rcases rustLines_mem_exists hm hn hr with ⟨line, hline, hcline⟩
  have hct : c ∈ trim line := mem_trim_of_mem hcline hc
  rw [joinPara]
  -- fold invariant: once c is in the accumulator it stays; the step for
  -- the line containing c puts it there.
  have step : ∀ (ls : List (List Char)) (acc : List Char),
      (c ∈ acc ∨ ∃ l ∈ ls, c ∈ trim l) →
      c ∈ ls.foldl (fun buf line =>
        if buf = [] then trim line else buf ++ ' ' :: trim line) acc := by
    intro ls
    induction ls with
    | nil =>
      intro acc hacc
      rcases hacc with h1 | ⟨l, hl, _⟩
      · exact h1
      · cases hl
    | cons l ls ih =>
      intro acc hacc
      rw [List.foldl_cons]
      apply ih
      rcases hacc with h1 | ⟨l2, hl2, hcl2⟩
      · left
        by_cases hb : acc = []
        · rw [hb] at h1; cases h1
        · rw [if_neg hb]
          exact List.mem_append.mpr (Or.inl h1)
      · rcases List.mem_cons.mp hl2 with rfl | hmem
        · left
          by_cases hb : acc = []
          · rw [if_pos hb]; exact hcl2
          · rw [if_neg hb]
            exact List.mem_append.mpr (Or.inr (List.mem_cons_of_mem _ hcl2))
        · right
          exact ⟨l2, hmem, hcl2⟩
  exact step (rustLines p) [] (Or.inr ⟨line, hline, hct⟩)

theorem wrapParagraph_ne_nil {p : List Char} (w : Nat)
    (h : ∃ c ∈ p, isWS c = false) : wrapParagraph p w ≠ [] := by
  rcases h with ⟨c, hc, hcw⟩
  have hmem : c ∈ joinPara p := mem_joinPara_of_mem hc hcw
  have hwords : splitWS (joinPara p) ≠ [] :=
    splitWS_ne_nil_of_exists ⟨c, hmem, hcw⟩
  apply wrapWords_ne_nil
  · exact fun wd hwd => (splitWS_words_ok (joinPara p) wd hwd).1
  · exact Or.inr hwords

/-! ### Helper lemmas: trimming is idempotent, trimmed text has no
leading whitespace -/

theorem dropWhile_idem (p : Char → Bool) (l : List Char) :
    (l.dropWhile p).dropWhile p = l.dropWhile p := by
  induction l with
  | nil => rfl
  | cons a rest ih =>
    rw [List.dropWhile_cons]
    by_cases h : p a
    · rw [if_pos h]; exact ih
    · rw [if_neg h, List.dropWhile_cons, if_neg h]

theorem exists_append_dropWhile (p : Char → Bool) (l : List Char) :
    ∃ s, l = s ++ l.dropWhile p := by
  induction l with
  | nil => exact ⟨[], rfl⟩
  | cons a rest ih =>
    rw [List.dropWhile_cons]
    by_cases h : p a
    · rw [if_pos h]
      rcases ih with ⟨s, hs⟩
      exact ⟨a :: s, by rw [List.cons_append, ← hs]⟩
    · rw [if_neg h]
      exact ⟨[], rfl⟩

theorem trimEnd_eq_append (l : List Char) : ∃ t, l = trimEnd l ++ t := by
  rcases exists_append_dropWhile isWS l.reverse with ⟨s, hs⟩
  refine ⟨s.reverse, ?_⟩
  have h2 := congrArg List.reverse hs
  rw [List.reverse_reverse, List.reverse_append] at h2
  exact h2

theorem head_dropWhile_false {p : Char → Bool} {l : List Char} {c : Char}
    (h : (l.dropWhile p).head? = some c) : p c = false := by
  induction l with
  | nil => cases h
  | cons a rest ih =>
    rw [List.dropWhile_cons] at h
    by_cases hp : p a
    · rw [if_pos hp] at h; exact ih h
    · rw [if_neg hp] at h
      simp only [List.head?_cons] at h
      rw [← Option.some.inj h]
      cases hb : p a with
      | false => rfl
      | true => exact absurd hb hp

theorem trimEnd_idem (z : List Char) : trimEnd (trimEnd z) = trimEnd z := by
  rw [trimEnd, trimEnd, List.reverse_reverse, dropWhile_idem]

theorem trimStart_trim (x : List Char) : trimStart (trim x) = trim x := by
  show trimStart (trimEnd (trimStart x)) = trimEnd (trimStart x)
  cases hE : trimEnd (trimStart x) with
  | nil => rfl
  | cons c cs =>
    rcases trimEnd_eq_append (trimStart x) with ⟨t, ht⟩
    have hhead : (trimStart x).head? = some c := by
      rw [ht, hE]; simp
    have hc : isWS c = false := head_dropWhile_false (p := isWS) hhead
    rw [trimStart, List.dropWhile_cons, if_neg (by simp [hc])]

theorem trimEnd_trim (x : List Char) : trimEnd (trim x) = trim x := by
  rw [trim]
  exact trimEnd_idem (trimStart x)

theorem trim_trim (x : List Char) : trim (trim x) = trim x := by
  show trimEnd (trimStart (trim x)) = trim x
  rw [trimStart_trim, trimEnd_trim]

theorem trim_fenceStrip (T : List Char) : trim (fenceStrip T) = fenceStrip T := by
  rw [fenceStrip]
  exact trim_trim _

theorem trim_head_not_ws {x : List Char} {c : Char} (h : (trim x).head? = some c) :
    isWS c = false := by
  rw [trim] at h
  rcases trimEnd_eq_append (trimStart x) with ⟨t, ht⟩
  cases hE : trimEnd (trimStart x) with
  | nil => rw [hE] at h; cases h
  | cons d ds =>
    rw [hE] at h
    simp only [List.head?_cons] at h
    have hd : (trimStart x).head? = some d := by
      rw [ht, hE]; simp
    have hdf : isWS d = false := head_dropWhile_false (p := isWS) hd
    rw [← Option.some.inj h]
    exact hdf

/-! ### Helper lemmas: format_commit_message equations -/

theorem format_eq_of_lines {msg l0 : List Char} {rest : List (List Char)}
    (h : rustLines msg = l0 :: rest) :
    format_commit_message msg = (subjectOf l0).map (formatBody rest) := by
  rw [format_commit_message, h]

/-! ### Claim C1 -/

/-- C1: the claim states the formatting core never fails on any input,
in particular that subject truncation of a line longer than 50 is total
for non-ASCII text.  The code slices lines[0] at byte offset 50, which
panics when that offset is inside a multi-byte character: on a first
line of 49 'A' followed by 'é' (byte length 51), both
format_commit_message and the fence-strip-then-format pipeline fault
(modelled as none). -/
theorem C1_truncation_faults_on_multibyte :
    byteLen (List.replicate 49 'A' ++ [Char.ofNat 233]) = 51 ∧
    format_commit_message (List.replicate 49 'A' ++ [Char.ofNat 233]) = none ∧
    generatePipeline (List.replicate 49 'A' ++ [Char.ofNat 233]) = none := by
  decide

/-! ### Claim C2 -/

/-- C2: the claim states that on text with no leading and no trailing
fence marker the Fence Stripper equals plain trimming and in particular
never drops the first line.  Counterexample "foo\nbar": it carries no
fence marker and is already trimmed, yet the language-tag rule (applied
unconditionally, not only under a fence) drops the first line, giving
"bar" instead of "foo\nbar". -/
theorem C2_fence_free_first_line_dropped :
    fenceMarker.isPrefixOf (trim ("foo\nbar".toList)) = false ∧
    fenceMarker.isSuffixOf (trim ("foo\nbar".toList)) = false ∧
    trim ("foo\nbar".toList) = "foo\nbar".toList ∧
    fenceStrip ("foo\nbar".toList) = "bar".toList ∧
    "bar".toList ≠ "foo\nbar".toList := by
  decide

/-! ### Claim C3 -/

/-- C3 counterexample: the Fence Stripper is not idempotent.  On
"a\nb\nc" one application drops the first line (language-tag rule),
giving "b\nc"; a second application drops another line, giving "c". -/
theorem C3_not_idempotent :
    fenceStrip ("a\nb\nc".toList) = "b\nc".toList ∧
    fenceStrip (fenceStrip ("a\nb\nc".toList)) = "c".toList ∧
    fenceStrip (fenceStrip ("a\nb\nc".toList)) ≠ fenceStrip ("a\nb\nc".toList) := by
  decide

/-- C3 amended: the Fence Stripper is idempotent on every input whose
stripped result carries no leading or trailing fence marker and does
not trigger the language-tag rule again (its first line contains a
space, or has at least 20 bytes, or the result has no newline at
all). -/
theorem C3_idempotent_amended (T : List Char)
    (hpre : fenceMarker.isPrefixOf (fenceStrip T) = false)
    (hsuf : fenceMarker.isSuffixOf (fenceStrip T) = false)
    (hlang : '\n' ∉ fenceStrip T ∨ (firstLine (fenceStrip T)).contains ' ' = true ∨
      20 ≤ byteLen (firstLine (fenceStrip T))) :
    fenceStrip (fenceStrip T) = fenceStrip T := by
  have htrim : trim (fenceStrip T) = fenceStrip T := trim_fenceStrip T
  have hhead : (fenceStrip T).head? ≠ some '\n' := by
    intro hh
    have hws : isWS '\n' = false := trim_head_not_ws (by rw [htrim]; exact hh)
    have hT : isWS '\n' = true := by decide
    rw [hT] at hws
    cases hws
  have hstep : fenceStrip (fenceStrip T)
      = trim (dropLangTag (dropFenceEnd (dropFenceStart (trim (fenceStrip T))))) := rfl
  rw [hstep, htrim]
  rw [dropFenceStart, if_neg (by simp [hpre])]
  rw [dropFenceEnd, if_neg (by simp [hsuf])]
  have hdrop : dropLangTag (fenceStrip T) = fenceStrip T := by
    rw [dropLangTag, if_neg hhead]
    rcases hlang with h1 | h2 | h3
    · rw [show firstLine (fenceStrip T) = fenceStrip T from
        takeWhile_ne_newline_eq_self h1]
      rw [if_neg (Nat.lt_irrefl _)]
    · by_cases ho : (firstLine (fenceStrip T)).length < (fenceStrip T).length
      · rw [if_pos ho, if_neg (fun hx => hx.1 h2)]
      · rw [if_neg ho]
    · by_cases ho : (firstLine (fenceStrip T)).length < (fenceStrip T).length
      · rw [if_pos ho, if_neg (fun hx => by omega)]
      · rw [if_neg ho]
  rw [hdrop, htrim]

/-- C3 witness: a concrete trimmed, fence-free input with a space in
its first line, on which stripping is indeed idempotent. -/
theorem C3_idempotent_witness :
    fenceStrip (fenceStrip ("hello world\nfoo bar".toList))
      = fenceStrip ("hello world\nfoo bar".toList) :=
  C3_idempotent_amended ("hello world\nfoo bar".toList) (by decide) (by decide)
    (Or.inr (Or.inl (by decide)))

/-! ### Claim C8 -/

/-- C8: the Argument Classifier marks ["-m", "msg"] and
["--message=msg"] as bypass and a trailing ["-m"] as not bypass, both
as bare user argument lists and behind the program name (argv[0]) as
main actually invokes it. -/
theorem C8_classifier_cases :
    skip_generation ["git-qwen", "-m", "msg"] = true ∧
    skip_generation ["git-qwen", "--message=msg"] = true ∧
    skip_generation ["git-qwen", "-m"] = false ∧
    skip_generation ["-m", "msg"] = true ∧
    skip_generation ["--message=msg"] = true ∧
    skip_generation ["-m"] = false := by
  decide

/-! ### Claim C9 -/

/-- C9: the commit sink is never invoked with an empty message.  If the
edited message is empty after removing '#'-prefixed lines and trimming,
the pipeline exits with code 1 before the commit step; the commit is
invoked exactly with the stripped message, and only when it is
nonempty. -/
theorem C9_no_empty_commit (edited : List Char) :
    (stripComments edited = [] → postEditOutcome edited = .error 1) ∧
    (∀ m, postEditOutcome edited = .ok m → m ≠ [] ∧ m = stripComments edited) := by
  constructor
  · intro h
    rw [postEditOutcome, if_pos h]
  · intro m hm
    rw [postEditOutcome] at hm
    by_cases h : stripComments edited = []
    · rw [if_pos h] at hm; cases hm
    · rw [if_neg h] at hm
      injection hm with h2
      rw [← h2]
      exact ⟨h, rfl⟩

/-- C9 witness: a comments-only edit aborts with exit code 1; an edit
with a real message line commits that stripped message. -/
theorem C9_witness :
    postEditOutcome ("# only comments".toList) = .error 1 ∧
    ("msg".toList ≠ [] ∧ "msg".toList = stripComments ("msg\n# c".toList)) :=
  ⟨(C9_no_empty_commit ("# only comments".toList)).1 (by decide),
   (C9_no_empty_commit ("msg\n# c".toList)).2 ("msg".toList) (by rfl)⟩

/-! ### Claim C6 -/

/-- C6: for every input with at least one line, whenever the Message
Formatter returns a result (it can fault on non-ASCII, see C1), the
subject line of that result has at most 50 characters and at most 50
bytes: the first line is hard-truncated to its first 50 bytes and then
trailing whitespace is trimmed. -/
theorem C6_subject_le_50 (msg r l0 : List Char) (rest : List (List Char))
    (hlines : rustLines msg = l0 :: rest)
    (hfmt : format_commit_message msg = some r) :
    (firstLine r).length ≤ 50 ∧ byteLen (firstLine r) ≤ 50 := by
  rw [format_eq_of_lines hlines] at hfmt
  cases hs : subjectOf l0 with
  | none => rw [hs] at hfmt; cases hfmt
  | some subj =>
    rw [hs] at hfmt
    simp only [Option.map_some'] at hfmt
    have hr : formatBody rest subj = r := Option.some.inj hfmt
    have hspec := subjectOf_spec hs
    have hnl0 : '\n' ∉ l0 :=
      rustLines_no_newline msg l0 (by rw [hlines]; exact List.mem_cons_self _ _)
    have hnsubj : '\n' ∉ subj := fun hm => hnl0 (hspec.2.subset hm)
    have hTE : '\n' ∉ trimEnd subj := fun hm => hnsubj (mem_of_mem_trimEnd hm)
    have hbTE : byteLen (trimEnd subj) ≤ 50 :=
      le_trans (byteLen_le_of_sublist (trimEnd_sublist subj)) hspec.1
    have hfl : firstLine r = trimEnd subj := by
      rw [← hr]
      cases rest with
      | nil =>
        rw [show formatBody [] subj = trimEnd subj from rfl, firstLine,
          takeWhile_ne_newline_eq_self hTE]
      | cons r1 rs =>
        rw [show formatBody (r1 :: rs) subj
            = (match firstNonBlank (r1 :: rs) with
               | none => trimEnd subj
               | some startIdx => trimEnd subj ++ nn ++
                   wrap_text (joinWith nl ((r1 :: rs).drop startIdx)) 72) from rfl]
        cases hfb : firstNonBlank (r1 :: rs) with
        | none =>
          show firstLine (trimEnd subj) = trimEnd subj
          rw [firstLine, takeWhile_ne_newline_eq_self hTE]
        | some idx =>
          show firstLine (trimEnd subj ++ nn ++
              wrap_text (joinWith nl ((r1 :: rs).drop idx)) 72) = trimEnd subj
          have hsplit : trimEnd subj ++ nn ++
              wrap_text (joinWith nl ((r1 :: rs).drop idx)) 72
              = trimEnd subj ++ '\n' ::
                  ('\n' :: wrap_text (joinWith nl ((r1 :: rs).drop idx)) 72) := by
            simp [nn]
          rw [firstLine, hsplit, takeWhile_append_newline hTE]
    rw [hfl]
    exact ⟨le_trans (length_le_byteLen _) hbTE, hbTE⟩

/-- C6 witness: the spec scenario — a sole line of 60 'A' characters is
formatted to exactly its first 50 characters with no body, whose
subject line has length and byte length at most 50. -/
theorem C6_witness :
    (firstLine (List.replicate 50 'A')).length ≤ 50 ∧
      byteLen (firstLine (List.replicate 50 'A')) ≤ 50 :=
  C6_subject_le_50 (List.replicate 60 'A') (List.replicate 50 'A')
    (List.replicate 60 'A') [] (by decide) (by decide)

/-! ### Claim C7 -/

/-- C7 counterexample: "\nfoo" contains exactly one non-empty line,
yet the formatted result is "\n\nfoo" — an empty subject followed by a
blank-line-plus-body suffix, not the subject alone (a subject alone
would contain no newline). -/
theorem C7_counterexample :
    ((rustLines ("\nfoo".toList)).countP (fun l => !l.isEmpty)) = 1 ∧
    format_commit_message ("\nfoo".toList) = some ("\n\nfoo".toList) ∧
    '\n' ∈ "\n\nfoo".toList := by
  decide

/-- C7 amended: for every input with at least one line in which every
line after the first is blank (empty or whitespace-only) — in
particular whenever the only non-empty line is the first — the result
is the subject alone: the trim_end of the (possibly truncated) first
line, with no blank-line-plus-body suffix appended. -/
theorem C7_single_line_amended (msg l0 : List Char) (rest : List (List Char))
    (hlines : rustLines msg = l0 :: rest)
    (hblank : ∀ l ∈ rest, trim l = []) :
    format_commit_message msg = (subjectOf l0).map trimEnd := by
  rw [format_eq_of_lines hlines]
  cases hs : subjectOf l0 with
  | none => rfl
  | some subj =>
    simp only [Option.map_some']
    congr 1
    cases rest with
    | nil => rfl
    | cons r1 rs =>
      have hfb := firstNonBlank_eq_none hblank
      rw [show formatBody (r1 :: rs) subj
          = (match firstNonBlank (r1 :: rs) with
             | none => trimEnd subj
             | some startIdx => trimEnd subj ++ nn ++
                 wrap_text (joinWith nl ((r1 :: rs).drop startIdx)) 72) from rfl, hfb]

/-- C7 witness: "subject\n \n" has its only non-blank content on the
first line; the result is the subject alone. -/
theorem C7_witness :
    format_commit_message ("subject\n \n".toList)
      = (subjectOf ("subject".toList)).map trimEnd :=
  C7_single_line_amended ("subject\n \n".toList) ("subject".toList)
    [" ".toList] (by decide) (by decide)

/-! ### Claim C10 -/

/-- C10: an argument list containing --amend and no bypass token takes
the generate flow (amend never bypasses generation), and the amend diff
fed to the generator is the parent-commit diff, then the staged diff,
then — only when -a or --all is also present — the unstaged diff, in
that order. -/
theorem C10_amend_generates (args : List String) (env : GitEnv)
    (hamend : args.any (fun a => a == "--amend") = true)
    (hskip : skip_generation args = false)
    (hh : env.headOk = true) (hs : env.stagedOk = true) (hu : env.unstagedOk = true) :
    mainFlow args = .generate true (args.any fun a => a == "-a" || a == "--all")
        (args.any fun a => a == "-s" || a == "--signoff") ∧
    get_git_diff env (args.any fun a => a == "-a" || a == "--all") true =
      .ok (env.headDiff ++ env.stagedDiff ++
        (if args.any (fun a => a == "-a" || a == "--all") then env.unstagedDiff
         else "")) := by
  constructor
  · rw [mainFlow, if_neg (by simp [hskip]), hamend]
  · rw [get_git_diff, if_pos rfl, if_neg (by simp [hh]), hs]
    simp [hu]

/-- C10 witness: the concrete invocation git-qwen --amend with all git
diff commands succeeding generates with is_amend set and feeds the
parent diff followed by the staged diff (no -a, so no unstaged part). -/
theorem C10_witness :
    mainFlow ["git-qwen", "--amend"]
      = .generate true
          (["git-qwen", "--amend"].any fun a => a == "-a" || a == "--all")
          (["git-qwen", "--amend"].any fun a => a == "-s" || a == "--signoff") ∧
    get_git_diff ⟨true, "H", true, "S", true, "U"⟩
        (["git-qwen", "--amend"].any fun a => a == "-a" || a == "--all") true =
      .ok ("H" ++ "S" ++
        (if (["git-qwen", "--amend"].any fun a => a == "-a" || a == "--all")
         then "U" else "")) :=
  C10_amend_generates ["git-qwen", "--amend"] ⟨true, "H", true, "S", true, "U"⟩
    (by decide) (by decide) rfl rfl rfl

/-! ### Claim C4 -/

/-- C4: wrap_text renders exactly the lines collected in
allWrappedLines, and every such line either has byte length (hence also
character length) at most the width, or is a single whitespace-free
word longer than the width, placed alone on its own line and never
split (the line is one whole word: splitting it by whitespace returns
the line itself). -/
theorem C4_wrap_width (t : List Char) (w : Nat) :
    wrap_text t w = joinWith nl (allWrappedLines t w) ∧
    ∀ l ∈ allWrappedLines t w,
      byteLen l ≤ w ∨
        (l ≠ [] ∧ (∀ ch ∈ l, isWS ch = false) ∧ w < byteLen l ∧
          splitWS l = [l]) := by
  refine ⟨wrap_text_eq_joinWith_lines t w, ?_⟩
  intro l hl
  rcases mem_interParas _ l hl with rfl | ⟨piece, hpiece, hlp⟩
  · exact Or.inl (by simp [byteLen])
  · have hsub : List.Sublist (wrapPieces t w)
        ((splitNN t).map (fun p => wrapParagraph p w)) :=
      dropWhile_sublist_self _ _
    have hp2 : piece ∈ (splitNN t).map (fun p => wrapParagraph p w) :=
      hsub.subset hpiece
    rcases List.mem_map.mp hp2 with ⟨q, hq, rfl⟩
    rcases wrapParagraph_width q w l hlp with h1 | ⟨h2, h3, h4⟩
    · exact Or.inl h1
    · exact Or.inr ⟨h2, h3, h4, splitWS_word_eq_self h2 h3⟩

/-- C4 witness: at width 4, the input "hi verylongword" produces an
output line that is the whole over-long word, unsplit and alone. -/
theorem C4_witness :
    byteLen ("verylongword".toList) ≤ 4 ∨
      ("verylongword".toList ≠ [] ∧
        (∀ ch ∈ "verylongword".toList, isWS ch = false) ∧
        4 < byteLen ("verylongword".toList) ∧
        splitWS ("verylongword".toList) = ["verylongword".toList]) :=
  (C4_wrap_width ("hi verylongword".toList) 4).2 ("verylongword".toList) (by decide)

/-! ### Claim C5 -/

/-- C5 counterexample: paragraph count is not always preserved.  The
input "\n\na" has two "\n\n"-delimited paragraphs (an empty one and
"a"), but the wrapped output is "a", a single paragraph: the loop never
pushes a separator while the accumulated result is still empty, so
leading empty paragraphs are dropped. -/
theorem C5_counterexample :
    (splitNN ("\n\na".toList)).length = 2 ∧
    (splitNN (wrap_text ("\n\na".toList) 72)).length = 1 := by
  decide

/-- C5 amended: for every width and every input whose first paragraph
is non-blank (contains a non-whitespace character), wrap_text maps each
input paragraph, in order, to exactly one output paragraph (its wrapped
content), so the paragraph count and relative order are preserved and
no paragraph is merged or split. -/
theorem C5_paragraphs_amended (t : List Char) (w : Nat) (p : List Char)
    (ps : List (List Char)) (hsplit : splitNN t = p :: ps)
    (hnb : ∃ c ∈ p, isWS c = false) :
    splitNN (wrap_text t w)
        = (p :: ps).map (fun q => joinWith nl (wrapParagraph q w)) ∧
    (splitNN (wrap_text t w)).length = (splitNN t).length := by
  have hne := wrapParagraph_ne_nil w hnb
  have hfirst : joinWith nl (wrapParagraph p w) ≠ [] := by
    cases hq : wrapParagraph p w with
    | nil => cases hne hq
    | cons line lines =>
      have hlok := wrapParagraph_lines_ok p w line
        (by rw [hq]; exact List.mem_cons_self _ _)
      exact joinWith_ne_nil nl lines hlok.1
  have hpieces : wrapPieces t w
      = wrapParagraph p w :: ps.map (fun q => wrapParagraph q w) := by
    rw [wrapPieces, hsplit, List.map_cons, List.dropWhile_cons,
      if_neg (by simp [hfirst])]
  have hcontents : wrap_text t w
      = joinWith nn ((p :: ps).map (fun q => joinWith nl (wrapParagraph q w))) := by
    rw [wrap_text, hpieces, List.map_cons, List.map_map, List.map_cons]
    rfl
  have hgood : ∀ c ∈ (p :: ps).map (fun q => joinWith nl (wrapParagraph q w)),
      hasNN c = false ∧ c.getLast? ≠ some '\n' := by
    intro c hc
    rcases List.mem_map.mp hc with ⟨q, hq, rfl⟩
    exact content_good (wrapParagraph q w) (wrapParagraph_lines_ok q w)
  have hmain : splitNN (wrap_text t w)
      = (p :: ps).map (fun q => joinWith nl (wrapParagraph q w)) := by
    rw [hcontents]
    exact splitNN_joinWith _ (by simp) hgood
  refine ⟨hmain, ?_⟩
  rw [hmain, hsplit]
  simp

/-- C5 witness: a two-paragraph input with non-blank first paragraph
keeps exactly its two paragraphs, in order, through wrapping. -/
theorem C5_witness :
    splitNN (wrap_text ("para one\n\npara two".toList) 72)
        = (["para one".toList, "para two".toList]).map
            (fun q => joinWith nl (wrapParagraph q 72)) ∧
    (splitNN (wrap_text ("para one\n\npara two".toList) 72)).length
        = (splitNN ("para one\n\npara two".toList)).length :=
  C5_paragraphs_amended ("para one\n\npara two".toList) 72
    ("para one".toList) ["para two".toList] (by decide) (by decide)
